import Mathlib

/-!
Verification of the aporia PRNG library (Rust) against its specification.

The Rust code is shallowly embedded: machine integers u64/u32 become Nat with
explicit reduction modulo 2^64 / 2^32 at every operation that can overflow
(wrapping_mul, wrapping_add, shifts, casts); the 312-word MT19937-64 array
becomes a function Nat -> Nat updated pointwise; byte buffers become List Nat;
a panicking function returns Except with the panic message; the unbounded
rejection-sampling loop takes explicit fuel and returns Option.
-/

namespace Aporia

/-- Modulus of u64 arithmetic. -/
def U64 : Nat := 2 ^ 64

/-- Modulus of u32 arithmetic. -/
def U32 : Nat := 2 ^ 32

/-- The constant u64::MAX. -/
def U64MAX : Nat := 2 ^ 64 - 1

/-! A backend is modelled by its state type S together with its
required primitive, a function S -> Nat x S returning the drawn u64 and the
successor state (Rust: fn next_u64(&mut self) -> u64). The derived trait
defaults below are generic in that function, mirroring the default methods of
the RandomBackend trait in src/backend/mod.rs. -/

/-- Derived default next_u32 (src/backend/mod.rs lines 120-122):
(self.next_u64() >> 32) as u32. -/
def nextU32 {S : Type} (next : S → Nat × S) (s : S) : Nat × S :=
  let p := next s
  ((p.1 >>> 32) % U32, p.2)

/-- Derived default next_f64 (src/backend/mod.rs lines 110-115):
let val = self.next_u64() >> 11; (val as f64) * (1.0 / ((1u64 << 53) as f64)).
The f64 arithmetic is modelled exactly in the rationals: val < 2^53 is exactly
representable in f64, 2^53 and its reciprocal are exact powers of two, and the
product val * 2^-53 has at most 53 significant bits with in-range exponent, so
every floating-point operation in the Rust code is exact and the embedding
into the rationals is value-faithful. -/
def nextF64 {S : Type} (next : S → Nat × S) (s : S) : ℚ × S :=
  let p := next s
  (((p.1 >>> 11 : Nat) : ℚ) * (1 / 2 ^ 53), p.2)

/-- The 8 bytes of u64::to_ne_bytes, modelled in little-endian order
(the native order is platform dependent; every property proved below is
independent of the chosen order). -/
def toNeBytes (v : Nat) : List Nat :=
  [v % 256, (v >>> 8) % 256, (v >>> 16) % 256, (v >>> 24) % 256,
   (v >>> 32) % 256, (v >>> 40) % 256, (v >>> 48) % 256, (v >>> 56) % 256]

/-- Derived default fill_bytes (src/backend/mod.rs lines 126-139): while
i + 8 <= len copy the 8 bytes of one draw; then, if 0 < len - i < 8, draw one
more word and copy only the needed prefix. The loop is rendered as recursion
on the remaining buffer suffix. -/
def fillBytes {S : Type} (next : S → Nat × S) (s : S) (buf : List Nat) :
    List Nat × S :=
  if _h8 : 8 ≤ buf.length then
    (toNeBytes (next s).1 ++ (fillBytes next (next s).2 (buf.drop 8)).1,
     (fillBytes next (next s).2 (buf.drop 8)).2)
  else if buf.isEmpty then (buf, s)
  else ((toNeBytes (next s).1).take buf.length, (next s).2)
termination_by buf.length
decreasing_by simp only [List.length_drop]; omega

/-- State after exactly n primitive draws. -/
def advance {S : Type} (next : S → Nat × S) : Nat → S → S
  | 0, s => s
  | n + 1, s => advance next n (next s).2

/-! SplitMix64 backend (src/backend/splitmix64.rs). State: one u64 word. -/

/-- One SplitMix64 draw (src/backend/splitmix64.rs lines 48-54). -/
def smNext (s : Nat) : Nat × Nat :=
  let st := (s + 0x9E3779B97F4A7C15) % U64
  let z1 := ((st ^^^ (st >>> 30)) * 0xBF58476D1CE4E5B9) % U64
  let z2 := ((z1 ^^^ (z1 >>> 27)) * 0x94D049BB133111EB) % U64
  (z2 ^^^ (z2 >>> 31), st)

/-! XorShift backend (src/backend/xorshift.rs). State: one u64 word. -/

/-- The crate error type (src/lib.rs lines 71-78); the f64 range fields are
embedded as rationals. -/
inductive AporiaError : Type
  | InvalidRangeU64 (minv maxv : Nat)
  | InvalidRangeF64 (minv maxv : ℚ)
  | InvalidSeed (msg : String)
deriving DecidableEq

/-- XorShift state transition (src/backend/xorshift.rs lines 62-69):
x ^= x << 13; x ^= x >> 7; x ^= x << 17, each shift wrapping in u64. -/
def xsStep (x : Nat) : Nat :=
  let a := x ^^^ ((x <<< 13) % U64)
  let b := a ^^^ (a >>> 7)
  b ^^^ ((b <<< 17) % U64)

/-- One XorShift draw: the updated state is also the returned value. -/
def xsNext (s : Nat) : Nat × Nat := (xsStep s, xsStep s)

/-- Fallible XorShift constructor (src/backend/xorshift.rs lines 44-49). -/
def XorShift.tryNew (seed : Nat) : Except AporiaError Nat :=
  if seed = 0 then
    .error (.InvalidSeed "XorShift seed must be non-zero")
  else .ok seed

/-- Panicking XorShift constructor (src/backend/xorshift.rs lines 53-57);
the panic on a zero seed is modelled as none. -/
def XorShift.new (seed : Nat) : Option Nat :=
  if seed = 0 then none else some seed

/-- Iterated XorShift state transition: the state after n draws. -/
def xsIterate : Nat → Nat → Nat
  | 0, s => s
  | n + 1, s => xsIterate n (xsStep s)

/-! PCG backend (src/backend/pcg.rs). State: a u64 state word and a u64
increment. -/

/-- PCG state (src/backend/pcg.rs lines 32-35). -/
structure PCGState : Type where
  state : Nat
  increment : Nat
deriving DecidableEq

/-- The shared LCG multiplier 6364136223846793005. -/
def pcgMULT : Nat := 6364136223846793005

/-- u32::rotate_right (rotation amount taken mod 32, result a u32). -/
def rotr32 (x r : Nat) : Nat :=
  (x >>> (r % 32)) ||| ((x <<< ((32 - r % 32) % 32)) % U32)

/-- One PCG draw (src/backend/pcg.rs lines 58-70): advance the LCG state,
then output the 32-bit xorshifted rotate of the old state widened to u64. -/
def pcgNext (g : PCGState) : Nat × PCGState :=
  let oldState := g.state
  let newState := (oldState * pcgMULT + g.increment) % U64
  let xorshifted := (((oldState >>> 18) ^^^ oldState) >>> 27) % U32
  let rot := oldState >>> 59
  (rotr32 xorshifted rot, { state := newState, increment := g.increment })

/-- PCG constructor (src/backend/pcg.rs lines 44-53): set the odd increment,
set state = seed + increment (wrapping), then run one internal draw whose
output is dropped. -/
def PCG.new (seed sequence : Nat) : PCGState :=
  let increment := ((sequence <<< 1) % U64) ||| 1
  let g0 : PCGState := { state := (seed + increment) % U64, increment }
  (pcgNext g0).2

/-! Xoshiro256StarStar backend (src/backend/xoshiro256starstar.rs).
State: four u64 words s[0]..s[3], embedded as four fields s0..s3. -/

/-- Xoshiro 4-word state (src/backend/xoshiro256starstar.rs lines 33-35). -/
structure XoState : Type where
  s0 : Nat
  s1 : Nat
  s2 : Nat
  s3 : Nat
deriving DecidableEq

/-- 64-bit rotate left (src/backend/xoshiro256starstar.rs lines 63-65):
(x << k) | (x >> (64 - k)), the left shift wrapping in u64. -/
def rotl64 (x k : Nat) : Nat :=
  ((x <<< k) % U64) ||| (x >>> (64 - k))

/-- One Xoshiro256StarStar draw (src/backend/xoshiro256starstar.rs lines
70-83): the result is computed from the pre-update state; the state words are
then updated by sequential assignments, each reading the values left by the
assignments before it. -/
def xoNext (g : XoState) : Nat × XoState :=
  let result := (rotl64 ((g.s1 * 5) % U64) 7 * 9) % U64
  let t := (g.s1 <<< 17) % U64
  let s2a := g.s2 ^^^ g.s0
  let s3a := g.s3 ^^^ g.s1
  let s1b := g.s1 ^^^ s2a
  let s0b := g.s0 ^^^ s3a
  let s2b := s2a ^^^ t
  let s3b := rotl64 s3a 45
  (result, { s0 := s0b, s1 := s1b, s2 := s2b, s3 := s3b })

/-! MT19937-64 backend (src/backend/mt19937_64.rs). The 312-word array is
embedded as a function Nat -> Nat read and written at indices 0..311
(an index write self.mt[i] = v becomes a pointwise functional update). -/

/-- LOWER_MASK = (1 << 31) - 1 (src/backend/mt19937_64.rs line 57). -/
def mtLOWER : Nat := (1 <<< 31) - 1

/-- UPPER_MASK = !LOWER_MASK in u64 (src/backend/mt19937_64.rs line 58). -/
def mtUPPER : Nat := (U64 - 1) - mtLOWER

/-- MATRIX_A (src/backend/mt19937_64.rs line 59). -/
def mtMATRIX : Nat := 0xB5026F5AA96619E9

/-- MT19937-64 state (src/backend/mt19937_64.rs lines 31-34). -/
structure MTState : Type where
  mt : Nat → Nat
  index : Nat

/-- Body of one twist-loop iteration (src/backend/mt19937_64.rs lines 62-69):
x combines the upper bit of mt[i] with the low 31 bits of mt[(i+1) % 312];
the new word is mt[(i+156) % 312] XOR (x >> 1, further XOR MATRIX_A when the
low bit of x is set). -/
def mtTwistVal (xi xnext x156 : Nat) : Nat :=
  let x := (xi &&& mtUPPER) ||| (xnext &&& mtLOWER)
  let xa := x >>> 1
  let xa2 := if x &&& 1 ≠ 0 then xa ^^^ mtMATRIX else xa
  x156 ^^^ xa2

/-- One iteration of the twist loop writes index i of the array in place,
reading the current (partially updated) array. -/
def mtStep (mt : Nat → Nat) (i : Nat) : Nat → Nat :=
  fun j =>
    if j = i then mtTwistVal (mt i) (mt ((i + 1) % 312)) (mt ((i + 156) % 312))
    else mt j

/-- The first n iterations of the in-place twist loop for i in 0..n. -/
def mtLoop (mt : Nat → Nat) : Nat → (Nat → Nat)
  | 0 => mt
  | n + 1 => mtStep (mtLoop mt n) n

/-- The twist operation (src/backend/mt19937_64.rs lines 56-72): run the
in-place loop for i in 0..312 and reset the cursor to 0. -/
def MT19937.twist (g : MTState) : MTState :=
  { mt := mtLoop g.mt 312, index := 0 }

/-- The MT19937-64 word sequence extended by the twist recurrence: positions
0..311 are the pre-twist array; position k + 312 carries the recurrence
value built from positions k, k + 1 and k + 156. The in-place twist is
proved below to write exactly positions 312..623 of this sequence. -/
def mtSeq (mtf : Nat → Nat) (k : Nat) : Nat :=
  if h : k < 312 then mtf k
  else mtTwistVal (mtSeq mtf (k - 312)) (mtSeq mtf (k - 311)) (mtSeq mtf (k - 156))
termination_by k
decreasing_by all_goals omega

/-- The twist pass as claimed by the specification: every one of the 312 new
words is computed from the original (pre-twist-pass) array only, never from a
word already updated earlier in the same pass. This definition follows the
wording of the spec, to be compared with the implemented MT19937.twist. -/
def mtTwistSpecSnapshot (g : MTState) : MTState :=
  { mt := fun i =>
      if i < 312 then
        mtTwistVal (g.mt i) (g.mt ((i + 1) % 312)) (g.mt ((i + 156) % 312))
      else g.mt i,
    index := 0 }

/-! The Rng wrapper (src/rng.rs). The wrapper holds one backend instance;
its state is the backend state S and its operations are generic in the
backend primitive. -/

/-- The rejection loop of gen_range (src/rng.rs lines 115-120): draw, discard
any v >= zone, accept the first v < zone and return min + (v % range). The
source loop is unbounded; explicit fuel makes it total, none meaning the
bound was reached before any draw was accepted. -/
def genRangeLoop {S : Type} (next : S → Nat × S) (zone range minv : Nat) :
    Nat → S → Option (Nat × S)
  | 0, _ => none
  | fuel + 1, s =>
    let p := next s
    if p.1 < zone then some ((minv + p.1 % range) % U64, p.2)
    else genRangeLoop next zone range minv fuel p.2

/-- gen_range (src/rng.rs lines 108-121): panic (modelled as Except.error
with the panic message) when min >= max, detected before any draw; otherwise
range = max - min, zone = u64::MAX - (u64::MAX % range), then the rejection
loop. -/
def Rng.genRange {S : Type} (next : S → Nat × S) (s : S)
    (minv maxv fuel : Nat) : Except String (Option (Nat × S)) :=
  if minv ≥ maxv then .error "min must be less than max"
  else
    let range := maxv - minv
    let zone := U64MAX - U64MAX % range
    .ok (genRangeLoop next zone range minv fuel s)

/-- gen_range_f64 (src/rng.rs lines 139-146): panic (modelled as
Except.error with the panic message) when min >= max, detected before any
draw; otherwise min + next_f64() * (max - min), all f64 values embedded as
rationals. -/
def Rng.genRangeF64 {S : Type} (next : S → Nat × S) (s : S)
    (minv maxv : ℚ) : Except String (ℚ × S) :=
  if minv ≥ maxv then .error "min must be less than max"
  else
    let p := nextF64 next s
    .ok (minv + p.1 * (maxv - minv), p.2)

/-! Theorems. -/

/-- C3: for every PCG state, the value returned by next_u64 is strictly less
than 2^32 (it is a 32-bit rotate result widened to 64 bits), and consequently
the derived default next_u32, which returns the upper 32 bits of one next_u64
draw, returns 0 on every call when the backend is PCG. -/
theorem pcg_output_below_2_32_next_u32_zero (g : PCGState) :
    (pcgNext g).1 < 2 ^ 32 ∧ (nextU32 pcgNext g).1 = 0 := by
  have hrot : ∀ x r : Nat, x < 2 ^ 32 → rotr32 x r < 2 ^ 32 := by
    intro x r hx
    unfold rotr32
    apply Nat.or_lt_two_pow
    · refine lt_of_le_of_lt ?_ hx
      rw [Nat.shiftRight_eq_div_pow]
      exact Nat.div_le_self _ _
    · show _ % U32 < 2 ^ 32
      exact Nat.mod_lt _ (by norm_num [U32])
  have h1 : (pcgNext g).1 < 2 ^ 32 := by
    show rotr32 ((((g.state >>> 18) ^^^ g.state) >>> 27) % U32) (g.state >>> 59) < 2 ^ 32
    apply hrot
    show _ % U32 < 2 ^ 32
    exact Nat.mod_lt _ (by norm_num [U32])
  refine ⟨h1, ?_⟩
  show ((pcgNext g).1 >>> 32) % U32 = 0
  rw [Nat.shiftRight_eq_div_pow, Nat.div_eq_of_lt h1, Nat.zero_mod]

/-- C4: the derived default next_f64 equals (next_u64() >> 11) * 2^-53 (the
primitive's low 11 bits discarded, the upper 53 kept) and always satisfies
0 <= result < 1; in particular it is never exactly 1. The f64 arithmetic is
embedded exactly in the rationals (see nextF64). -/
theorem next_f64_unit_interval {S : Type} (next : S → Nat × S) (s : S)
    (hb : (next s).1 < 2 ^ 64) :
    (nextF64 next s).1 = (((next s).1 >>> 11 : Nat) : ℚ) * (1 / 2 ^ 53) ∧
    0 ≤ (nextF64 next s).1 ∧ (nextF64 next s).1 < 1 := by
  refine ⟨rfl, ?_, ?_⟩
  · show 0 ≤ (((next s).1 >>> 11 : Nat) : ℚ) * (1 / 2 ^ 53)
    positivity
  · show (((next s).1 >>> 11 : Nat) : ℚ) * (1 / 2 ^ 53) < 1
    have h53 : (next s).1 >>> 11 < 2 ^ 53 := by
      rw [Nat.shiftRight_eq_div_pow]
      rw [Nat.div_lt_iff_lt_mul (by norm_num : 0 < 2 ^ 11)]
      calc (next s).1 < 2 ^ 64 := hb
        _ = 2 ^ 53 * 2 ^ 11 := by norm_num
    have hcast : (((next s).1 >>> 11 : Nat) : ℚ) < 2 ^ 53 := by exact_mod_cast h53
    rw [mul_one_div, div_lt_one (by positivity)]
    exact hcast

/-- Witness for C4 at the SplitMix64 backend in state 0. -/
theorem next_f64_unit_interval_witness :
    (smNext 0).1 < 2 ^ 64 ∧
    ((nextF64 smNext 0).1 = (((smNext 0).1 >>> 11 : Nat) : ℚ) * (1 / 2 ^ 53) ∧
     0 ≤ (nextF64 smNext 0).1 ∧ (nextF64 smNext 0).1 < 1) :=
  ⟨by decide, next_f64_unit_interval smNext 0 (by decide)⟩

/-- C6: PCG::new(seed, sequence) sets increment = (sequence << 1) | 1 (hence
always odd), sets the state word to seed + increment wrapping, and performs
exactly one internal generator step before returning, so the first visible
draw operates on the once-advanced state rather than on the raw seed. -/
theorem pcg_new_odd_increment_one_warmup_step (seed sequence : Nat) :
    (PCG.new seed sequence).increment = ((sequence <<< 1) % U64) ||| 1 ∧
    (PCG.new seed sequence).increment % 2 = 1 ∧
    PCG.new seed sequence =
      (pcgNext { state := (seed + (((sequence <<< 1) % U64) ||| 1)) % U64,
                 increment := ((sequence <<< 1) % U64) ||| 1 }).2 ∧
    (PCG.new seed sequence).state =
      (((seed + (((sequence <<< 1) % U64) ||| 1)) % U64) * pcgMULT +
        (((sequence <<< 1) % U64) ||| 1)) % U64 := by
  refine ⟨rfl, ?_, rfl, rfl⟩
  have h : ((sequence <<< 1) % U64 ||| 1).testBit 0 = true := by
    simp [Nat.testBit_or]
  rw [Nat.testBit_zero] at h
  show ((sequence <<< 1) % U64 ||| 1) % 2 = 1
  exact of_decide_eq_true h

/-- C7: one Xoshiro256StarStar draw returns rotl(s1 * 5, 7) * 9 (wrapping
multiplies) computed entirely from the pre-update state, and the state update
s2 ^= s0; s3 ^= s1; s1 ^= s2; s0 ^= s3; s2 ^= t; s3 = rotl(s3, 45) with
t = s1 << 17 is exactly the closed form below, in which later assignments
read the values produced by the earlier assignments of the same step. -/
theorem xoshiro_step_order (g : XoState) :
    xoNext g =
      ((rotl64 ((g.s1 * 5) % U64) 7 * 9) % U64,
       { s0 := g.s0 ^^^ (g.s3 ^^^ g.s1)
         s1 := g.s1 ^^^ (g.s2 ^^^ g.s0)
         s2 := (g.s2 ^^^ g.s0) ^^^ ((g.s1 <<< 17) % U64)
         s3 := rotl64 (g.s3 ^^^ g.s1) 45 }) := rfl

/-- C2: for u64 bounds with min < max, gen_range computes
range = max - min and zone = u64::MAX - (u64::MAX % range), runs the
rejection loop that discards draws >= zone and returns min + (v % range) for
the first accepted draw v, and every value it returns lies in [min, max). -/
theorem gen_range_rejection_in_bounds {S : Type} (next : S → Nat × S) (s : S)
    (minv maxv fuel : Nat) (hlt : minv < maxv) (hmax : maxv ≤ U64MAX) :
    Rng.genRange next s minv maxv fuel =
      .ok (genRangeLoop next (U64MAX - U64MAX % (maxv - minv)) (maxv - minv)
            minv fuel s) ∧
    (∀ r s2, Rng.genRange next s minv maxv fuel = .ok (some (r, s2)) →
      minv ≤ r ∧ r < maxv) := by
  have hU : U64 = 18446744073709551616 := by norm_num [U64]
  have hUM : U64MAX = 18446744073709551615 := by norm_num [U64MAX]
  have heq : Rng.genRange next s minv maxv fuel =
      .ok (genRangeLoop next (U64MAX - U64MAX % (maxv - minv)) (maxv - minv)
            minv fuel s) := by
    rw [Rng.genRange, if_neg (by omega)]
  refine ⟨heq, ?_⟩
  intro r s2 hres
  rw [heq] at hres
  simp only [Except.ok.injEq] at hres
  have hex : ∃ v, r = (minv + v % (maxv - minv)) % U64 := by
    clear heq
    induction fuel generalizing s with
    | zero => simp [genRangeLoop] at hres
    | succ n ih =>
      simp only [genRangeLoop] at hres
      split at hres
      · simp only [Option.some.injEq, Prod.mk.injEq] at hres
        exact ⟨(next s).1, hres.1.symm⟩
      · exact ih _ hres
  obtain ⟨v, hr⟩ := hex
  have hrange : v % (maxv - minv) < maxv - minv := Nat.mod_lt _ (by omega)
  have hsmall : minv + v % (maxv - minv) < U64 := by omega
  rw [Nat.mod_eq_of_lt hsmall] at hr
  omega

/-- Witness for C2: with the XorShift backend in state 1, bounds 10 and 20
and one unit of fuel, the accepted draw 1082269761 yields 11, inside
the interval. -/
theorem gen_range_rejection_in_bounds_witness :
    (10:Nat) < 20 ∧ (20:Nat) ≤ U64MAX ∧ ((10:Nat) ≤ 11 ∧ (11:Nat) < 20) :=
  ⟨by decide, by decide,
   (gen_range_rejection_in_bounds xsNext 1 10 20 1 (by decide) (by decide)).2
     11 1082269761 (by rfl)⟩

/-- C10: both gen_range and gen_range_f64 fail fatally (panic, modelled as
Except.error) exactly when min >= max; the failure is detected before any
draw, so the failing result is the same from every generator state (no state
is consumed); for min < max neither operation fails. -/
theorem range_precondition_fatal {S : Type} (next : S → Nat × S) (s : S)
    (minv maxv fuel : Nat) (mf xf : ℚ) :
    (minv ≥ maxv →
      Rng.genRange next s minv maxv fuel = .error "min must be less than max" ∧
      ∀ s2 : S, Rng.genRange next s2 minv maxv fuel =
        Rng.genRange next s minv maxv fuel) ∧
    (mf ≥ xf →
      Rng.genRangeF64 next s mf xf = .error "min must be less than max" ∧
      ∀ s2 : S, Rng.genRangeF64 next s2 mf xf = Rng.genRangeF64 next s mf xf) ∧
    (minv < maxv → ∃ o, Rng.genRange next s minv maxv fuel = .ok o) ∧
    (mf < xf → ∃ p, Rng.genRangeF64 next s mf xf = .ok p) := by
  refine ⟨?_, ?_, ?_, ?_⟩
  · intro hge
    constructor
    · rw [Rng.genRange, if_pos hge]
    · intro s2
      rw [Rng.genRange, if_pos hge, Rng.genRange, if_pos hge]
  · intro hge
    constructor
    · rw [Rng.genRangeF64, if_pos hge]
    · intro s2
      rw [Rng.genRangeF64, if_pos hge, Rng.genRangeF64, if_pos hge]
  · intro hlt
    exact ⟨_, by rw [Rng.genRange, if_neg (by omega)]⟩
  · intro hlt
    exact ⟨_, by rw [Rng.genRangeF64, if_neg (by exact not_le.mpr hlt)]⟩

/-- Witness for C10 at concrete inverted and valid bounds with the XorShift
backend in state 1. -/
theorem range_precondition_fatal_witness :
    (20:Nat) ≥ 10 ∧ (1:ℚ) ≥ 0 ∧
    Rng.genRange xsNext 1 20 10 3 = .error "min must be less than max" ∧
    Rng.genRangeF64 xsNext 1 1 0 = .error "min must be less than max" :=
  ⟨by decide, zero_le_one,
   ((range_precondition_fatal xsNext 1 20 10 3 1 0).1 (by decide)).1,
   ((range_precondition_fatal xsNext 1 20 10 3 1 0).2.1 zero_le_one).1⟩

/-- Shifting right stays below any power-of-two bound. -/
theorem shiftr_lt {x n e : Nat} (hx : x < 2 ^ e) : x >>> n < 2 ^ e := by
  rw [Nat.shiftRight_eq_div_pow]
  exact lt_of_le_of_lt (Nat.div_le_self _ _) hx

/-- Reduction modulo U64 stays below 2^64. -/
theorem mod_U64_lt (y : Nat) : y % U64 < 2 ^ 64 :=
  Nat.mod_lt _ (by norm_num [U64])

/-- A nonzero x below 2^e is never equal to x * 2^s reduced mod 2^e when
s is positive: multiplying by 2^s raises the 2-adic valuation. -/
theorem mul_pow_mod_ne (s : Nat) (hs : 1 ≤ s) :
    ∀ e x : Nat, 0 < x → x < 2 ^ e → x ≠ (x * 2 ^ s) % 2 ^ e := by
  intro e
  induction e with
  | zero =>
    intro x hx hlt
    omega
  | succ e ih =>
    intro x hx hlt hEq
    rcases Nat.even_or_odd x with he | ho
    · obtain ⟨y, hy⟩ := he
      have hy2 : x = 2 * y := by omega
      have h1 : (2 * y * 2 ^ s) % 2 ^ (e + 1) = 2 * (y * 2 ^ s % 2 ^ e) := by
        rw [mul_assoc, pow_succ, mul_comm (2 ^ e) 2]
        exact Nat.mul_mod_mul_left 2 (y * 2 ^ s) (2 ^ e)
      rw [hy2] at hEq hlt hx
      rw [h1] at hEq
      have hy0 : 0 < y := by omega
      have hylt : y < 2 ^ e := by rw [pow_succ] at hlt; omega
      exact ih y hy0 hylt (by omega)
    · have h1 : x % 2 = 1 := Nat.odd_iff.mp ho
      have hdecomp : x * 2 ^ s = x * 2 ^ (s - 1) * 2 := by
        rw [mul_assoc]
        congr 1
        rw [← pow_succ]
        congr 1
        omega
      have h2 : (x * 2 ^ s) % 2 = 0 := by
        rw [hdecomp]
        exact Nat.mul_mod_left _ _
      have h3 : ((x * 2 ^ s) % 2 ^ (e + 1)) % 2 = (x * 2 ^ s) % 2 :=
        Nat.mod_mod_of_dvd _ ⟨2 ^ e, by rw [pow_succ]; ring⟩
      omega

/-- If x XOR (x << s mod 2^64) is zero for a u64 x and positive s, then x is
zero. -/
theorem xor_shiftl_eq_zero {x : Nat} (s : Nat) (hs : 1 ≤ s) (hx : x < 2 ^ 64)
    (h : x ^^^ ((x <<< s) % U64) = 0) : x = 0 := by
  rcases Nat.eq_zero_or_pos x with h0 | hpos
  · exact h0
  · exfalso
    have hEq : x = (x <<< s) % U64 := Nat.xor_eq_zero.mp h
    rw [Nat.shiftLeft_eq] at hEq
    have hU : U64 = 2 ^ 64 := rfl
    rw [hU] at hEq
    exact mul_pow_mod_ne s hs 64 x hpos hx hEq

/-- If x XOR (x >> s) is zero for positive s, then x is zero. -/
theorem xor_shiftr_eq_zero {x : Nat} (s : Nat) (hs : 1 ≤ s)
    (h : x ^^^ (x >>> s) = 0) : x = 0 := by
  rcases Nat.eq_zero_or_pos x with h0 | hpos
  · exact h0
  · exfalso
    have hEq : x = x >>> s := Nat.xor_eq_zero.mp h
    rw [Nat.shiftRight_eq_div_pow] at hEq
    have hlt : x / 2 ^ s < x :=
      Nat.div_lt_self hpos (Nat.one_lt_two_pow_iff.mpr (by omega))
    omega

/-- The XorShift transition written with its lets expanded. -/
theorem xsStep_eq (x : Nat) :
    xsStep x =
      ((x ^^^ ((x <<< 13) % U64)) ^^^ ((x ^^^ ((x <<< 13) % U64)) >>> 7)) ^^^
        (((((x ^^^ ((x <<< 13) % U64)) ^^^
          ((x ^^^ ((x <<< 13) % U64)) >>> 7))) <<< 17) % U64) := rfl

/-- The XorShift transition keeps the state inside u64. -/
theorem xsStep_bound (x : Nat) (hx : x < 2 ^ 64) : xsStep x < 2 ^ 64 := by
  rw [xsStep_eq]
  have ha : x ^^^ ((x <<< 13) % U64) < 2 ^ 64 :=
    Nat.xor_lt_two_pow hx (mod_U64_lt _)
  have hb : (x ^^^ ((x <<< 13) % U64)) ^^^ ((x ^^^ ((x <<< 13) % U64)) >>> 7)
      < 2 ^ 64 := Nat.xor_lt_two_pow ha (shiftr_lt ha)
  exact Nat.xor_lt_two_pow hb (mod_U64_lt _)

/-- The XorShift transition never maps a nonzero u64 state to zero. -/
theorem xsStep_ne_zero (x : Nat) (hx : x < 2 ^ 64) (hnz : x ≠ 0) :
    xsStep x ≠ 0 := by
  have ha : x ^^^ ((x <<< 13) % U64) ≠ 0 :=
    fun h => hnz (xor_shiftl_eq_zero 13 (by omega) hx h)
  have haB : x ^^^ ((x <<< 13) % U64) < 2 ^ 64 :=
    Nat.xor_lt_two_pow hx (mod_U64_lt _)
  rw [xsStep_eq]
  generalize hA : x ^^^ ((x <<< 13) % U64) = a at ha haB ⊢
  have hb : a ^^^ (a >>> 7) ≠ 0 :=
    fun h => ha (xor_shiftr_eq_zero 7 (by omega) h)
  have hbB : a ^^^ (a >>> 7) < 2 ^ 64 := Nat.xor_lt_two_pow haB (shiftr_lt haB)
  generalize hB : a ^^^ (a >>> 7) = b at hb hbB ⊢
  exact fun h => hb (xor_shiftl_eq_zero 17 (by omega) hbB h)

/-- C8: the XorShift state is never zero: the transition maps every nonzero
u64 state to a nonzero state, zero is an absorbing fixed point reached only
from zero, and every instance built by the fallible constructor (which
rejects seed 0) keeps a nonzero state across every number of draws. -/
theorem xorshift_state_never_zero :
    (∀ x : Nat, x < 2 ^ 64 → x ≠ 0 → xsStep x ≠ 0) ∧
    xsStep 0 = 0 ∧
    (∀ seed st : Nat, XorShift.tryNew seed = .ok st → seed < 2 ^ 64 →
      ∀ n : Nat, xsIterate n st ≠ 0) := by
  refine ⟨xsStep_ne_zero, by decide, ?_⟩
  intro seed st hok hlt n
  have hsz : seed ≠ 0 ∧ st = seed := by
    unfold XorShift.tryNew at hok
    split at hok
    · exact absurd hok (by simp)
    · rename_i h
      simp only [Except.ok.injEq] at hok
      exact ⟨h, hok.symm⟩
  obtain ⟨hnz, rfl⟩ := hsz
  have hinv : ∀ m s : Nat, s < 2 ^ 64 → s ≠ 0 →
      xsIterate m s ≠ 0 ∧ xsIterate m s < 2 ^ 64 := by
    intro m
    induction m with
    | zero => intro s h1 h2; exact ⟨h2, h1⟩
    | succ k ih =>
      intro s h1 h2
      exact ih (xsStep s) (xsStep_bound s h1) (xsStep_ne_zero s h1 h2)
  exact (hinv n st hlt hnz).1

/-- Witness for C8 at seed 1. -/
theorem xorshift_state_never_zero_witness :
    1 < 2 ^ 64 ∧ (1:Nat) ≠ 0 ∧ xsStep 1 ≠ 0 ∧ xsIterate 3 1 ≠ 0 :=
  ⟨by decide, by decide, xorshift_state_never_zero.1 1 (by decide) (by decide),
   xorshift_state_never_zero.2.2 1 1 (by rfl) (by decide) 3⟩

/-- C9: try_new(0) returns the InvalidSeed error; for every non-zero seed
try_new succeeds, and from seed 1 the first two draws are non-zero and
distinct; the non-fallible constructor rejects (panics, modelled as none) on
seed 0 and succeeds on every non-zero seed. -/
theorem xorshift_constructor_contract :
    XorShift.tryNew 0 = .error (.InvalidSeed "XorShift seed must be non-zero") ∧
    (∀ seed : Nat, seed ≠ 0 → XorShift.tryNew seed = .ok seed) ∧
    ((xsNext 1).1 ≠ 0 ∧ (xsNext (xsNext 1).2).1 ≠ 0 ∧
      (xsNext 1).1 ≠ (xsNext (xsNext 1).2).1) ∧
    XorShift.new 0 = none ∧
    (∀ seed : Nat, seed ≠ 0 → XorShift.new seed = some seed) := by
  refine ⟨rfl, ?_, ⟨by decide, by decide, by decide⟩, rfl, ?_⟩
  · intro seed h
    unfold XorShift.tryNew
    rw [if_neg h]
  · intro seed h
    unfold XorShift.new
    rw [if_neg h]

/-- Witness for C9 at seed 7. -/
theorem xorshift_constructor_contract_witness :
    (7:Nat) ≠ 0 ∧ XorShift.tryNew 7 = .ok 7 ∧ XorShift.new 7 = some 7 :=
  ⟨by decide, xorshift_constructor_contract.2.1 7 (by decide),
   xorshift_constructor_contract.2.2.2.2 7 (by decide)⟩

/-- Unfolding of fillBytes on a buffer of at least 8 bytes. -/
theorem fillBytes_big {S : Type} (next : S → Nat × S) (s : S) (buf : List Nat)
    (h8 : 8 ≤ buf.length) :
    fillBytes next s buf =
      (toNeBytes (next s).1 ++ (fillBytes next (next s).2 (buf.drop 8)).1,
       (fillBytes next (next s).2 (buf.drop 8)).2) := by
  rw [fillBytes.eq_def, dif_pos h8]

/-- Unfolding of fillBytes on the empty buffer: no draw is taken. -/
theorem fillBytes_nil {S : Type} (next : S → Nat × S) (s : S) :
    fillBytes next s [] = ([], s) := by
  rw [fillBytes.eq_def]
  rfl

/-- Unfolding of fillBytes on a non-empty tail shorter than 8 bytes: one
more draw, only the needed prefix copied. -/
theorem fillBytes_small {S : Type} (next : S → Nat × S) (s : S)
    (buf : List Nat) (h0 : buf ≠ []) (h8 : buf.length < 8) :
    fillBytes next s buf =
      ((toNeBytes (next s).1).take buf.length, (next s).2) := by
  rw [fillBytes.eq_def, dif_neg (by omega),
      if_neg (by simpa [List.isEmpty_iff] using h0)]

/-- fillBytes writes exactly the buffer length and consumes exactly
ceil(len / 8) draws. -/
theorem fillBytes_len_state {S : Type} (next : S → Nat × S) :
    ∀ n (s : S) (buf : List Nat), buf.length = n →
      (fillBytes next s buf).1.length = buf.length ∧
      (fillBytes next s buf).2 = advance next ((buf.length + 7) / 8) s := by
  intro n
  induction n using Nat.strong_induction_on with
  | _ n ih =>
    intro s buf hlen
    by_cases h8 : 8 ≤ buf.length
    · have hdrop : (buf.drop 8).length = buf.length - 8 := by
        simp [List.length_drop]
      have hrec := ih (buf.length - 8) (by omega) (next s).2 (buf.drop 8) hdrop
      rw [fillBytes_big next s buf h8]
      constructor
      · simp only [List.length_append]
        have h1 : (toNeBytes (next s).1).length = 8 := rfl
        rw [h1, hrec.1, hdrop]
        omega
      · rw [hrec.2, hdrop]
        have hstep : (buf.length + 7) / 8 = (buf.length - 8 + 7) / 8 + 1 := by
          omega
        rw [hstep]
        rfl
    · by_cases hnil : buf = []
      · subst hnil
        rw [fillBytes_nil]
        exact ⟨rfl, rfl⟩
      · rw [fillBytes_small next s buf hnil (by omega)]
        constructor
        · simp only [List.length_take]
          have h1 : (toNeBytes (next s).1).length = 8 := rfl
          rw [h1]
          omega
        · have hpos : buf.length ≠ 0 := by
            simpa [List.length_eq_zero] using hnil
          have hlen1 : (buf.length + 7) / 8 = 1 := by omega
          rw [hlen1]
          rfl

/-- The result of fillBytes depends on the input buffer only through its
length: every byte of the buffer is overwritten with generator output. -/
theorem fillBytes_contents_irrel {S : Type} (next : S → Nat × S) :
    ∀ n (s : S) (buf buf2 : List Nat), buf.length = n →
      buf2.length = buf.length → fillBytes next s buf2 = fillBytes next s buf := by
  intro n
  induction n using Nat.strong_induction_on with
  | _ n ih =>
    intro s buf buf2 hlen heq
    by_cases h8 : 8 ≤ buf.length
    · rw [fillBytes_big next s buf h8, fillBytes_big next s buf2 (by omega)]
      have hrec : fillBytes next (next s).2 (buf2.drop 8) =
          fillBytes next (next s).2 (buf.drop 8) := by
        apply ih (buf.length - 8) (by omega)
        · simp [List.length_drop]
        · simp [List.length_drop, heq]
      rw [hrec]
    · by_cases hnil : buf = []
      · subst hnil
        have h2 : buf2 = [] := by simpa [List.length_eq_zero] using heq
        subst h2
        rfl
      · have hnil2 : buf2 ≠ [] := by
          intro h
          rw [h] at heq
          simp only [List.length_nil] at heq
          exact hnil (List.length_eq_zero.mp heq.symm)
        rw [fillBytes_small next s buf hnil (by omega),
            fillBytes_small next s buf2 hnil2 (by omega), heq]

/-- C5: for every buffer and backend state, the derived default fill_bytes
writes exactly the buffer length in bytes (every byte is overwritten with
generator output, so the result depends on the input buffer only through its
length) and consumes exactly ceil(len / 8) primitive draws; in particular
zero draws for the empty buffer. -/
theorem fill_bytes_exact {S : Type} (next : S → Nat × S) (s : S)
    (buf : List Nat) :
    (fillBytes next s buf).1.length = buf.length ∧
    (fillBytes next s buf).2 = advance next ((buf.length + 7) / 8) s ∧
    ∀ buf2 : List Nat, buf2.length = buf.length →
      fillBytes next s buf2 = fillBytes next s buf :=
  ⟨(fillBytes_len_state next buf.length s buf rfl).1,
   (fillBytes_len_state next buf.length s buf rfl).2,
   fun buf2 h => fillBytes_contents_irrel next buf.length s buf buf2 rfl h⟩

/-- Witness for C5 with the SplitMix64 backend in state 0 and a 3-byte
buffer (one draw consumed). -/
theorem fill_bytes_exact_witness :
    (fillBytes smNext 0 [1, 2, 3]).1.length = 3 ∧
    (fillBytes smNext 0 [1, 2, 3]).2 = advance smNext 1 0 ∧
    fillBytes smNext 0 [9, 9, 9] = fillBytes smNext 0 [1, 2, 3] :=
  ⟨(fill_bytes_exact smNext 0 [1, 2, 3]).1,
   (fill_bytes_exact smNext 0 [1, 2, 3]).2.1,
   (fill_bytes_exact smNext 0 [1, 2, 3]).2.2 [9, 9, 9] (by decide)⟩

/-- Unfolding of mtSeq below 312: the pre-twist array. -/
theorem mtSeq_lt (mtf : Nat → Nat) (k : Nat) (h : k < 312) :
    mtSeq mtf k = mtf k := by
  rw [mtSeq.eq_def, dif_pos h]

/-- Unfolding of mtSeq at and above 312: the twist recurrence. -/
theorem mtSeq_ge (mtf : Nat → Nat) (k : Nat) (h : ¬ k < 312) :
    mtSeq mtf k =
      mtTwistVal (mtSeq mtf (k - 312)) (mtSeq mtf (k - 311))
        (mtSeq mtf (k - 156)) := by
  rw [mtSeq.eq_def, dif_neg h]

/-- After n in-place iterations of the twist loop, slots below n hold the
recurrence values 312..311+n and the remaining slots still hold the original
array. -/
theorem mtLoop_eq (mtf : Nat → Nat) :
    ∀ n, n ≤ 312 → ∀ j : Nat,
      mtLoop mtf n j = if j < n then mtSeq mtf (j + 312) else mtf j := by
  intro n
  induction n with
  | zero =>
    intro _ j
    simp [mtLoop]
  | succ m ih =>
    intro hle j
    have ihm := ih (by omega)
    simp only [mtLoop, mtStep]
    by_cases hj : j = m
    · subst hj
      rw [if_pos rfl, if_pos (Nat.lt_succ_self j)]
      have hm312 : j < 312 := by omega
      have r1 : mtLoop mtf j j = mtSeq mtf j := by
        rw [ihm j, if_neg (by omega)]
        exact (mtSeq_lt mtf j hm312).symm
      have r2 : mtLoop mtf j ((j + 1) % 312) = mtSeq mtf (j + 1) := by
        by_cases hj311 : j < 311
        · have hmod : (j + 1) % 312 = j + 1 := Nat.mod_eq_of_lt (by omega)
          rw [hmod, ihm (j + 1), if_neg (by omega)]
          exact (mtSeq_lt mtf (j + 1) (by omega)).symm
        · have hj311' : j = 311 := by omega
          subst hj311'
          rw [(by norm_num : (311 + 1) % 312 = 0), ihm 0, if_pos (by omega)]
      have r3 : mtLoop mtf j ((j + 156) % 312) = mtSeq mtf (j + 156) := by
        by_cases hj156 : j < 156
        · have hmod : (j + 156) % 312 = j + 156 := Nat.mod_eq_of_lt (by omega)
          rw [hmod, ihm (j + 156), if_neg (by omega)]
          exact (mtSeq_lt mtf (j + 156) (by omega)).symm
        · have hmod : (j + 156) % 312 = j - 156 := by omega
          rw [hmod, ihm (j - 156), if_pos (by omega)]
          have he : j - 156 + 312 = j + 156 := by omega
          rw [he]
      rw [r1, r2, r3, mtSeq_ge mtf (j + 312) (by omega)]
      have e1 : j + 312 - 312 = j := by omega
      have e2 : j + 312 - 311 = j + 1 := by omega
      have e3 : j + 312 - 156 = j + 156 := by omega
      rw [e1, e2, e3]
    · rw [if_neg hj, ihm j]
      by_cases hjm : j < m
      · rw [if_pos hjm, if_pos (by omega)]
      · rw [if_neg hjm, if_neg (by omega)]

/-- C1 (amended): one call to twist writes, for each index i in 0..312, the
recurrence value mtSeq(i + 312) into slot i and resets the cursor to 0; that
value combines the upper bit of the value at position i with the lower 31
bits of the value at position i + 1, applies the one-bit right shift with the
conditional MATRIX_A XOR, and XORs the value at position i + 156 — but the
values read are those of the in-place pass: the read at offset i + 1 is the
original word only for i in 0..310, while for i = 311 it is the word already
updated at step 0 of the same pass, and the read at offset i + 156 is the
already-updated word for every i at or above 156 (exactly the published
MT19937-64 recurrence). -/
theorem mt_twist_in_place_recurrence (g : MTState) (i : Nat) (h : i < 312) :
    (MT19937.twist g).index = 0 ∧
    (MT19937.twist g).mt i = mtSeq g.mt (i + 312) ∧
    mtSeq g.mt (i + 312) =
      mtTwistVal (mtSeq g.mt i) (mtSeq g.mt (i + 1)) (mtSeq g.mt (i + 156)) ∧
    mtSeq g.mt i = g.mt i ∧
    (i < 311 → mtSeq g.mt (i + 1) = g.mt ((i + 1) % 312)) ∧
    (i = 311 → mtSeq g.mt (i + 1) = (MT19937.twist g).mt 0) ∧
    (i < 156 → mtSeq g.mt (i + 156) = g.mt ((i + 156) % 312)) ∧
    (156 ≤ i → mtSeq g.mt (i + 156) = (MT19937.twist g).mt (i - 156)) := by
  have hmt : ∀ j : Nat, (MT19937.twist g).mt j =
      if j < 312 then mtSeq g.mt (j + 312) else g.mt j := by
    intro j
    exact mtLoop_eq g.mt 312 (le_refl 312) j
  refine ⟨rfl, ?_, ?_, mtSeq_lt g.mt i h, ?_, ?_, ?_, ?_⟩
  · rw [hmt i, if_pos h]
  · rw [mtSeq_ge g.mt (i + 312) (by omega)]
    have e1 : i + 312 - 312 = i := by omega
    have e2 : i + 312 - 311 = i + 1 := by omega
    have e3 : i + 312 - 156 = i + 156 := by omega
    rw [e1, e2, e3]
  · intro h311
    have hmod : (i + 1) % 312 = i + 1 := Nat.mod_eq_of_lt (by omega)
    rw [hmod]
    exact mtSeq_lt g.mt (i + 1) (by omega)
  · intro h311
    subst h311
    rw [hmt 0, if_pos (by omega)]
  · intro h156
    have hmod : (i + 156) % 312 = i + 156 := Nat.mod_eq_of_lt (by omega)
    rw [hmod]
    exact mtSeq_lt g.mt (i + 156) (by omega)
  · intro h156
    rw [hmt (i - 156), if_pos (by omega)]
    have he : i - 156 + 312 = i + 156 := by omega
    rw [he]

/-- A concrete MT19937-64 state: word 0 is 1, all other words are 0,
cursor exhausted. -/
def mtExample : MTState :=
  { mt := fun j => if j = 0 then 1 else 0, index := 312 }

/-- Witness for C1 (amended) at the concrete state mtExample and index 5. -/
theorem mt_twist_in_place_recurrence_witness :
    5 < 312 ∧
    ((MT19937.twist mtExample).index = 0 ∧
     (MT19937.twist mtExample).mt 5 = mtSeq mtExample.mt (5 + 312) ∧
     mtSeq mtExample.mt (5 + 312) =
       mtTwistVal (mtSeq mtExample.mt 5) (mtSeq mtExample.mt (5 + 1))
         (mtSeq mtExample.mt (5 + 156)) ∧
     mtSeq mtExample.mt 5 = mtExample.mt 5 ∧
     (5 < 311 → mtSeq mtExample.mt (5 + 1) = mtExample.mt ((5 + 1) % 312)) ∧
     (5 = 311 → mtSeq mtExample.mt (5 + 1) = (MT19937.twist mtExample).mt 0) ∧
     (5 < 156 → mtSeq mtExample.mt (5 + 156) = mtExample.mt ((5 + 156) % 312)) ∧
     (156 ≤ 5 → mtSeq mtExample.mt (5 + 156) =
       (MT19937.twist mtExample).mt (5 - 156))) :=
  ⟨by decide, mt_twist_in_place_recurrence mtExample 5 (by decide)⟩

set_option maxRecDepth 4000 in
/-- C1 counterexample: at the concrete state mtExample the in-place twist of
the code and the snapshot twist prescribed by the claim (all reads taken from
the original pre-twist array) disagree at index 311: the final iteration of
the code reads the word at offset (311 + 1) mod 312 = 0 that step 0 already
updated, not the original word, so the claimed all-original-reads description
is false of the code. -/
theorem mt_twist_snapshot_counterexample :
    (MT19937.twist mtExample).mt 311 ≠ (mtTwistSpecSnapshot mtExample).mt 311 := by
  decide

end Aporia
